import Mathlib

/-!
Shallow embedding of the storage-naming core of rustypaste (src/paste.rs).

Paths are modelled on Unix semantics as in the source: a path string is a
sequence of components separated by the character `/`.  The operations of
`std::path::Path` that the source uses (`file_name`, `extension`,
`set_file_name`, `set_extension`, `join`) are embedded over `List Char`
file names; a full path inside the upload directory is a list of
components (`List (List Char)`), since `store_file` and `store_url` only
ever join the configured upload root with single file-name components.

External collaborators are abstracted exactly as the spec prescribes:
the random-name generator is the `Option` result of one `generate()` call,
content-type sniffing (the `infer` crate) is a function parameter, and a
pure association-list filesystem models create/write/read.
-/

namespace RustyPaste

/-- Bytes of a paste body (`Vec<u8>` in the source). -/
abbrev Bytes := List Nat

/-- Type of the data to store (enum `PasteType` in src/paste.rs). -/
inductive PasteType where
  | File : PasteType
  | Url : PasteType
deriving DecidableEq

/-- Content-disposition metadata: the source only queries
`has_form_field(name)` on it, so it is embedded as that capability. -/
structure ContentDisposition where
  has_form_field : String → Bool

/-- Embedding of `TryFrom<&ContentDisposition> for PasteType`
(src/paste.rs lines 19-30): `file` is checked before `url`. -/
def pasteTypeTryFrom (content_disposition : ContentDisposition) :
    Except Unit PasteType :=
  if content_disposition.has_form_field "file" then .ok .File
  else if content_disposition.has_form_field "url" then .ok .Url
  else .error ()

/-- Representation of a single paste (struct `Paste`). -/
structure Paste where
  data : Bytes
  type_ : PasteType

/-- Split a path string at every `/` separator (the pieces between
separators, in order; empty pieces are kept here and filtered later). -/
def splitSlash : List Char → List (List Char)
  | [] => [[]]
  | c :: rest =>
    if c = '/' then [] :: splitSlash rest
    else
      match splitSlash rest with
      | h :: t => (c :: h) :: t
      | [] => [[c]]

/-- Path components in the sense of `std::path::Components`: empty pieces
and lone `.` pieces are skipped; `..` is kept as a component. -/
def pathComponents (l : List Char) : List (List Char) :=
  (splitSlash l).filter (fun c => decide (c ≠ [] ∧ c ≠ ['.']))

/-- Embedding of `Path::file_name`: the last component when it is a normal
component; `none` when the path is empty, is a root, or ends in `..`. -/
def rustFileName (l : List Char) : Option (List Char) :=
  match (pathComponents l).getLast? with
  | some v => if v = ['.', '.'] then none else some v
  | none => none

/-- Embedding of src/paste.rs lines 51-59: extract the final path component
of the requested name, defaulting to "file" when there is none and
replacing a bare "-" by "stdin". -/
def sanitizeFileName (l : List Char) : List Char :=
  match rustFileName l with
  | some v => if v = ['-'] then "stdin".data else v
  | none => "file".data

/-- Split a file name at its final dot: `some (st, ex)` with the name equal
to `st ++ dot ++ ex`, or `none` when the name has no dot. -/
def splitLastDot : List Char → Option (List Char × List Char)
  | [] => none
  | c :: rest =>
    match splitLastDot rest with
    | some (st, ex) => some (c :: st, ex)
    | none => if c = '.' then some ([], rest) else none

/-- Embedding of `Path::extension` on a file name: the portion after the
final dot, except that a name with no dot, or a name that begins with its
only dot (a hidden file such as ".gitignore"), has no extension. -/
def fnExtension (l : List Char) : Option (List Char) :=
  match splitLastDot l with
  | some ([], _) => none
  | some (_, ex) => some ex
  | none => none

/-- Embedding of `Path::file_stem` on a file name: the portion before the
final dot when the name has an extension, the whole name otherwise. -/
def fnStem (l : List Char) : List Char :=
  match splitLastDot l with
  | some (st, _) => if st = [] then l else st
  | none => l

/-- Embedding of `PathBuf::set_extension` on a file name: replace the
current extension (if any) by `ext`, removing it when `ext` is empty. -/
def setExtension (l : List Char) (ext : List Char) : List Char :=
  if ext = [] then fnStem l else fnStem l ++ '.' :: ext

/-- Configuration slice consumed by the storage core: the upload root
(`config.server.upload_path`, as path components), the default extension
(`config.paste.default_extension`), and the result of the one
`config.paste.random_url.generate()` call the operation makes (the
generator is an external collaborator returning an optional name). -/
structure Config where
  genResult : Option (List Char)
  default_extension : List Char
  upload_path : List (List Char)

/-- Outcome of a successful store operation: the returned file name, the
full path written (as components), and the byte content written. -/
structure StoredFile where
  returned : List Char
  path : List (List Char)
  content : Bytes
deriving DecidableEq

/-- Embedding of src/paste.rs lines 60-78: branch on whether the candidate
path has an extension; with one, a generated name replaces the base while
the original extension is re-applied; without one, the extension is set
from content sniffing with `default_extension` as fallback. -/
def resolveFileName (file_name : List Char) (config : Config)
    (sniffed : Option (List Char)) : List Char :=
  match fnExtension file_name with
  | some extension =>
    match config.genResult with
    | some g => setExtension g extension
    | none => file_name
  | none =>
    setExtension
      (match config.genResult with
       | some g => g
       | none => file_name)
      (sniffed.getD config.default_extension)

/-- Embedding of `Paste::store_file` (src/paste.rs lines 50-86): sanitize
the requested name, resolve the final name, and write the paste bytes to
`upload_path/<resolved name>`, returning the resolved name.  `sniff`
abstracts `infer::get(..).map(|t| t.extension())`. -/
def store_file (p : Paste) (file_name : List Char) (config : Config)
    (sniff : Bytes → Option (List Char)) : StoredFile :=
  { returned := resolveFileName (sanitizeFileName file_name) config (sniff p.data)
  , path := config.upload_path ++
      [resolveFileName (sanitizeFileName file_name) config (sniff p.data)]
  , content := p.data }

/-- Modelled from the spec: UTF-8 text decoding, performed in the source by
`str::from_utf8` (Rust standard library, outside src/).  Decodes a byte
sequence to its Unicode code points, rejecting truncated sequences,
stray continuation bytes, overlong encodings, surrogates, and code points
above 0x10FFFF; "fails with a validation error if the bytes are not valid
text". -/
def utf8Decode : Bytes → Option (List Nat)
  | [] => some []
  | b :: rest =>
    if b < 0x80 then (utf8Decode rest).map (b :: ·)
    else if b < 0xC0 then none
    else if b < 0xE0 then
      match rest with
      | b1 :: rest2 =>
        if 0x80 ≤ b1 ∧ b1 < 0xC0 then
          let cp := (b - 0xC0) * 0x40 + (b1 - 0x80)
          if cp < 0x80 then none else (utf8Decode rest2).map (cp :: ·)
        else none
      | [] => none
    else if b < 0xF0 then
      match rest with
      | b1 :: b2 :: rest2 =>
        if (0x80 ≤ b1 ∧ b1 < 0xC0) ∧ (0x80 ≤ b2 ∧ b2 < 0xC0) then
          let cp := (b - 0xE0) * 0x1000 + (b1 - 0x80) * 0x40 + (b2 - 0x80)
          if cp < 0x800 ∨ (0xD800 ≤ cp ∧ cp ≤ 0xDFFF) then none
          else (utf8Decode rest2).map (cp :: ·)
        else none
      | _ => none
    else if b < 0xF8 then
      match rest with
      | b1 :: b2 :: b3 :: rest2 =>
        if (0x80 ≤ b1 ∧ b1 < 0xC0) ∧ (0x80 ≤ b2 ∧ b2 < 0xC0) ∧
            (0x80 ≤ b3 ∧ b3 < 0xC0) then
          let cp := (b - 0xF0) * 0x40000 + (b1 - 0x80) * 0x1000 +
            (b2 - 0x80) * 0x40 + (b3 - 0x80)
          if cp < 0x10000 ∨ 0x10FFFF < cp then none
          else (utf8Decode rest2).map (cp :: ·)
        else none
      | _ => none
    else none

/-- Modelled from the spec: the parsed form of an absolute URL with
"scheme + authority required" (the `url` crate, outside src/). -/
structure ParsedUrl where
  scheme : List Nat
  host : List Nat
  path : List Nat
deriving DecidableEq

/-- True for an ASCII letter code point (legal first scheme character). -/
def isSchemeStart (c : Nat) : Bool :=
  (0x41 ≤ c && c ≤ 0x5A) || (0x61 ≤ c && c ≤ 0x7A)

/-- True for a legal non-initial scheme character
(letter, digit, `+`, `-` or `.`). -/
def isSchemeChar (c : Nat) : Bool :=
  isSchemeStart c || (0x30 ≤ c && c ≤ 0x39) || c = 0x2B || c = 0x2D || c = 0x2E

/-- Split the input at its first `:` (code point 0x3A): the part before it
and the part after it, or `none` when there is no colon. -/
def splitScheme : List Nat → Option (List Nat × List Nat)
  | [] => none
  | c :: rest =>
    if c = 0x3A then some ([], rest)
    else
      match splitScheme rest with
      | some (s, r) => some (c :: s, r)
      | none => none

/-- Split the input at its first `/` (code point 0x2F): the part before it
and the remainder starting with that `/` (empty when there is none). -/
def splitHost : List Nat → List Nat × List Nat
  | [] => ([], [])
  | c :: rest =>
    if c = 0x2F then ([], c :: rest)
    else
      let (h, p) := splitHost rest
      (c :: h, p)

/-- Modelled from the spec: absolute-URL parsing, performed in the source
by `Url::parse` (the `url` crate, outside src/).  "Parse the decoded text
as an absolute URL (scheme + authority required)": a valid scheme, then
`//`, then a non-empty authority, then the path; an input with no scheme
such as "testurl.com" is rejected. -/
def urlParse (l : List Nat) : Option ParsedUrl :=
  match splitScheme l with
  | none => none
  | some (s, rest) =>
    match s with
    | [] => none
    | c :: cs =>
      if isSchemeStart c && cs.all isSchemeChar then
        match rest with
        | 0x2F :: 0x2F :: rest2 =>
          match splitHost rest2 with
          | (host, pth) => if host = [] then none
              else some { scheme := s, host := host, path := pth }
        | _ => none
      else none

/-- Modelled from the spec: the canonicalized URL string written to disk
(`url.to_string()` in the source): scheme, `://`, authority, and the path,
which canonicalizes to `/` when empty. -/
def urlToString (u : ParsedUrl) : List Nat :=
  u.scheme ++ [0x3A, 0x2F, 0x2F] ++ u.host ++
    (if u.path = [] then [0x2F] else u.path)

/-- Failure of a store operation.  In the source both validation failures
of `store_url` are wrapped as `IoError::new(IoErrorKind::Other, msg)`
before joining the I/O error channel; the embedding keeps the two classes
apart as the wrapping site does. -/
inductive StoreError where
  | validation : List Char → StoreError
  | ioError : StoreError
deriving DecidableEq

/-- Outcome of a successful `store_url`: the returned file name, the path
written (as components), and the canonical URL text written (as code
points). -/
structure StoredUrl where
  returned : List Char
  path : List (List Char)
  content : List Nat
deriving DecidableEq

/-- Embedding of `Paste::store_url` (src/paste.rs lines 94-106): decode the
body as text, parse it as an absolute URL, resolve the name from the
generator with literal fallback "url", and write the canonicalized URL to
`upload_path/url/<name>`. -/
def store_url (p : Paste) (config : Config) : Except StoreError StoredUrl :=
  match utf8Decode p.data with
  | none => .error (.validation "invalid utf-8 sequence".data)
  | some data =>
    match urlParse data with
    | none => .error (.validation "relative URL without a base".data)
    | some url =>
      let file_name := config.genResult.getD "url".data
      .ok { returned := file_name
          , path := config.upload_path ++ ["url".data, file_name]
          , content := urlToString url }

deriving instance DecidableEq for Except

/-- A pure filesystem: an association list from paths to byte contents,
most recent write first. -/
abbrev Fs := List (List (List Char) × Bytes)

/-- Create-or-truncate then write: the path now maps to exactly `d`
(`File::create` followed by `write_all` in the source). -/
def fsWrite (fs : Fs) (pathc : List (List Char)) (d : Bytes) : Fs :=
  (pathc, d) :: fs

/-- Read a path back from the filesystem model. -/
def fsRead (fs : Fs) (pathc : List (List Char)) : Option Bytes :=
  match fs with
  | [] => none
  | (q, d) :: rest => if q = pathc then some d else fsRead rest pathc

/-! Helper lemmas about the path-component embedding. -/

theorem splitSlash_ne_nil (l : List Char) : splitSlash l ≠ [] := by
  cases l with
  | nil => simp [splitSlash]
  | cons c rest =>
    simp only [splitSlash]
    split
    · simp
    · split <;> simp

theorem not_slash_of_mem_splitSlash {l c : List Char}
    (h : c ∈ splitSlash l) : '/' ∉ c := by
  induction l generalizing c with
  | nil =>
    simp only [splitSlash, List.mem_singleton] at h
    subst h; simp
  | cons a rest ih =>
    simp only [splitSlash] at h
    by_cases ha : a = '/'
    · rw [if_pos ha] at h
      rcases List.mem_cons.mp h with h | h
      · subst h; simp
      · exact ih h
    · rw [if_neg ha] at h
      rcases hs : splitSlash rest with _ | ⟨hd, tl⟩
      · exact absurd hs (splitSlash_ne_nil rest)
      · rw [hs] at h
        rcases List.mem_cons.mp h with h | h
        · subst h
          intro hm
          rcases List.mem_cons.mp hm with h' | h'
          · exact ha h'.symm
          · exact ih (hs ▸ List.mem_cons_self hd tl) h'
        · exact ih (hs ▸ List.mem_cons_of_mem hd h)

theorem mem_pathComponents {l c : List Char} (h : c ∈ pathComponents l) :
    c ≠ [] ∧ c ≠ ['.'] ∧ '/' ∉ c := by
  unfold pathComponents at h
  rw [List.mem_filter] at h
  have h2 := h.2
  simp only [decide_eq_true_eq] at h2
  exact ⟨h2.1, h2.2, not_slash_of_mem_splitSlash h.1⟩

theorem splitSlash_append (d r : List Char) :
    splitSlash (d ++ '/' :: r) = splitSlash d ++ splitSlash r := by
  induction d with
  | nil => simp [splitSlash]
  | cons c d ih =>
    by_cases hc : c = '/'
    · subst hc
      simp [splitSlash, ih]
    · rcases hs : splitSlash d with _ | ⟨hd, tl⟩
      · exact absurd hs (splitSlash_ne_nil d)
      · simp only [List.cons_append, splitSlash, if_neg hc, List.append_eq]
        rw [ih, hs]
        simp

theorem pathComponents_append (d r : List Char) :
    pathComponents (d ++ '/' :: r) = pathComponents d ++ pathComponents r := by
  unfold pathComponents
  rw [splitSlash_append, List.filter_append]

theorem rustFileName_append {r : List Char} (d : List Char)
    (h : pathComponents r ≠ []) :
    rustFileName (d ++ '/' :: r) = rustFileName r := by
  unfold rustFileName
  rw [pathComponents_append, List.getLast?_append_of_ne_nil _ h]

theorem sanitizeFileName_append {r : List Char} (d : List Char)
    (h : pathComponents r ≠ []) :
    sanitizeFileName (d ++ '/' :: r) = sanitizeFileName r := by
  unfold sanitizeFileName
  rw [rustFileName_append d h]

theorem rustFileName_mem {l v : List Char} (h : rustFileName l = some v) :
    v ∈ pathComponents l ∧ v ≠ ['.', '.'] := by
  unfold rustFileName at h
  rcases hg : (pathComponents l).getLast? with _ | w
  · rw [hg] at h; cases h
  · rw [hg] at h
    dsimp only at h
    by_cases hw : w = ['.', '.']
    · rw [if_pos hw] at h; cases h
    · rw [if_neg hw] at h
      injection h with h
      subst h
      refine ⟨?_, hw⟩
      obtain ⟨hne, hx⟩ := List.mem_getLast?_eq_getLast (Option.mem_def.mpr hg)
      exact hx ▸ List.getLast_mem hne

theorem sanitizeFileName_valid (l : List Char) :
    sanitizeFileName l ≠ [] ∧ '/' ∉ sanitizeFileName l ∧
    sanitizeFileName l ≠ ['.'] ∧ sanitizeFileName l ≠ ['.', '.'] ∧
    sanitizeFileName l ≠ ['-'] := by
  unfold sanitizeFileName
  rcases hf : rustFileName l with _ | v
  · exact ⟨by decide, by decide, by decide, by decide, by decide⟩
  · obtain ⟨hmem, hdd⟩ := rustFileName_mem hf
    obtain ⟨hne, hdot, hsl⟩ := mem_pathComponents hmem
    dsimp only
    by_cases hv : v = ['-']
    · rw [if_pos hv]
      exact ⟨by decide, by decide, by decide, by decide, by decide⟩
    · rw [if_neg hv]
      exact ⟨hne, hsl, hdot, hdd, hv⟩

theorem splitSlash_no_slash {v : List Char} (h : '/' ∉ v) :
    splitSlash v = [v] := by
  induction v with
  | nil => rfl
  | cons c rest ih =>
    have hc : ¬c = '/' := fun hc => h (hc ▸ List.mem_cons_self c rest)
    have hr : '/' ∉ rest := fun hm => h (List.mem_cons_of_mem c hm)
    simp only [splitSlash, if_neg hc, ih hr]

theorem sanitizeFileName_of_valid {v : List Char} (h1 : v ≠ [])
    (h2 : '/' ∉ v) (h3 : v ≠ ['.']) (h4 : v ≠ ['.', '.'])
    (h5 : v ≠ ['-']) : sanitizeFileName v = v := by
  unfold sanitizeFileName rustFileName pathComponents
  rw [splitSlash_no_slash h2]
  simp [h1, h3, h4, h5]

theorem sanitizeFileName_idem (l : List Char) :
    sanitizeFileName (sanitizeFileName l) = sanitizeFileName l := by
  obtain ⟨h1, h2, h3, h4, h5⟩ := sanitizeFileName_valid l
  exact sanitizeFileName_of_valid h1 h2 h3 h4 h5

/-! Helper lemmas about extensions. -/

theorem not_dot_of_splitLastDot_none {l : List Char}
    (h : splitLastDot l = none) : '.' ∉ l := by
  induction l with
  | nil => simp
  | cons c rest ih =>
    simp only [splitLastDot] at h
    rcases hs : splitLastDot rest with _ | p
    · rw [hs] at h
      by_cases hc : c = '.'
      · rw [if_pos hc] at h; cases h
      · intro hm
        rcases List.mem_cons.mp hm with h' | h'
        · exact hc h'.symm
        · exact ih hs h'
    · rw [hs] at h; cases h

theorem splitLastDot_none_of_not_dot {l : List Char} (h : '.' ∉ l) :
    splitLastDot l = none := by
  induction l with
  | nil => rfl
  | cons c rest ih =>
    have hc : ¬c = '.' := fun hc => h (hc ▸ List.mem_cons_self c rest)
    have hr : '.' ∉ rest := fun hm => h (List.mem_cons_of_mem c hm)
    simp only [splitLastDot, ih hr, if_neg hc]

theorem splitLastDot_eq_some {l st ex : List Char}
    (h : splitLastDot l = some (st, ex)) :
    l = st ++ '.' :: ex ∧ '.' ∉ ex := by
  induction l generalizing st ex with
  | nil => cases h
  | cons c rest ih =>
    simp only [splitLastDot] at h
    rcases hs : splitLastDot rest with _ | ⟨st2, ex2⟩
    · rw [hs] at h
      by_cases hc : c = '.'
      · rw [if_pos hc] at h
        injection h with h
        injection h with h1 h2
        subst h1; subst h2; subst hc
        exact ⟨rfl, not_dot_of_splitLastDot_none hs⟩
      · rw [if_neg hc] at h; cases h
    · rw [hs] at h
      dsimp only at h
      injection h with h
      injection h with h1 h2
      subst h1; subst h2
      obtain ⟨heq, hex⟩ := ih hs
      exact ⟨by rw [heq]; rfl, hex⟩

theorem splitLastDot_append {l e : List Char} (he : '.' ∉ e) :
    splitLastDot (l ++ '.' :: e) = some (l, e) := by
  induction l with
  | nil =>
    simp only [List.nil_append, splitLastDot,
      splitLastDot_none_of_not_dot he]
    simp
  | cons c rest ih =>
    simp only [List.cons_append, splitLastDot, List.append_eq]
    rw [ih]

theorem fnStem_of_fnExtension_none {l : List Char}
    (h : fnExtension l = none) : fnStem l = l := by
  unfold fnExtension at h
  unfold fnStem
  rcases hs : splitLastDot l with _ | ⟨st, ex⟩
  · rfl
  · rw [hs] at h
    rcases st with _ | ⟨c, st⟩
    · simp
    · dsimp only at h; cases h

theorem fnExtension_none_of_not_dot {l : List Char} (h : '.' ∉ l) :
    fnExtension l = none := by
  unfold fnExtension
  rw [splitLastDot_none_of_not_dot h]

theorem fnStem_of_not_dot {l : List Char} (h : '.' ∉ l) : fnStem l = l :=
  fnStem_of_fnExtension_none (fnExtension_none_of_not_dot h)

theorem fnStem_subset {l : List Char} {c : Char} (h : c ∈ fnStem l) :
    c ∈ l := by
  unfold fnStem at h
  rcases hs : splitLastDot l with _ | ⟨st, ex⟩
  · rw [hs] at h; exact h
  · rw [hs] at h
    dsimp only at h
    by_cases hst : st = []
    · rw [if_pos hst] at h; exact h
    · rw [if_neg hst] at h
      obtain ⟨heq, _⟩ := splitLastDot_eq_some hs
      rw [heq]
      exact List.mem_append_left _ h

theorem fnStem_ne_nil {l : List Char} (h : l ≠ []) : fnStem l ≠ [] := by
  unfold fnStem
  rcases hs : splitLastDot l with _ | ⟨st, ex⟩
  · exact h
  · dsimp only
    by_cases hst : st = []
    · rw [if_pos hst]; exact h
    · rw [if_neg hst]; exact hst

theorem fnExtension_eq_some {n ex : List Char}
    (h : fnExtension n = some ex) : ∃ st, n = st ++ '.' :: ex := by
  unfold fnExtension at h
  rcases hs : splitLastDot n with _ | ⟨st, e2⟩
  · rw [hs] at h; cases h
  · rw [hs] at h
    rcases st with _ | ⟨c, st2⟩
    · cases h
    · dsimp only at h
      injection h with h
      subst h
      exact ⟨_, (splitLastDot_eq_some hs).1⟩

theorem setExtension_eq_append {l e : List Char} (hst : fnStem l = l)
    (he : e ≠ []) : setExtension l e = l ++ '.' :: e := by
  unfold setExtension
  rw [if_neg he, hst]

theorem setExtension_props {l e : List Char} (hl : l ≠ [])
    (hst : fnStem l = l) (he : e ≠ []) (hd : '.' ∉ e) :
    fnExtension (setExtension l e) = some e ∧
    fnStem (setExtension l e) = l := by
  rw [setExtension_eq_append hst he]
  have hs := splitLastDot_append (l := l) hd
  constructor
  · unfold fnExtension
    rw [hs]
    rcases l with _ | ⟨c, l2⟩
    · exact absurd rfl hl
    · rfl
  · unfold fnStem
    rw [hs]
    dsimp only
    rw [if_neg hl]

theorem setExtension_shape (l e : List Char) :
    setExtension l e = fnStem l ∨
    (e ≠ [] ∧ setExtension l e = fnStem l ++ '.' :: e) := by
  unfold setExtension
  by_cases he : e = []
  · rw [if_pos he]; exact Or.inl rfl
  · rw [if_neg he]; exact Or.inr ⟨he, rfl⟩

theorem append_dot_ne {l e : List Char} (hl : l ≠ []) (he : e ≠ [])
    (s : List Char) (hs : s.length ≤ 2) : l ++ '.' :: e ≠ s := by
  intro heq
  have h1 : 1 ≤ l.length := List.length_pos.mpr hl
  have h2 : 1 ≤ e.length := List.length_pos.mpr he
  have h3 := congrArg List.length heq
  simp only [List.length_append, List.length_cons] at h3
  omega

theorem setExtension_not_special {b e : List Char} (hb : fnStem b = b)
    (h1 : b ≠ []) (h2 : b ≠ ['-']) (h3 : b ≠ ['.'])
    (h4 : b ≠ ['.', '.']) :
    setExtension b e ≠ [] ∧ setExtension b e ≠ ['-'] ∧
    setExtension b e ≠ ['.'] ∧ setExtension b e ≠ ['.', '.'] := by
  rcases setExtension_shape b e with h | ⟨he, h⟩
  · rw [h, hb]
    exact ⟨h1, h2, h3, h4⟩
  · rw [h, hb]
    exact ⟨append_dot_ne h1 he [] (by decide),
      append_dot_ne h1 he ['-'] (by decide),
      append_dot_ne h1 he ['.'] (by decide),
      append_dot_ne h1 he ['.', '.'] (by decide)⟩

theorem setExtension_no_slash {b e : List Char} (hb : '/' ∉ b)
    (he : '/' ∉ e) : '/' ∉ setExtension b e := by
  rcases setExtension_shape b e with h | ⟨_, h⟩
  · rw [h]
    exact fun hm => hb (fnStem_subset hm)
  · rw [h]
    intro hm
    rcases List.mem_append.mp hm with hm | hm
    · exact hb (fnStem_subset hm)
    · rcases List.mem_cons.mp hm with hm | hm
      · cases hm
      · exact he hm

/-! Helper lemmas about the name-resolution branches of store_file. -/

theorem store_file_returned (p : Paste) (fn : List Char) (cfg : Config)
    (sniff : Bytes → Option (List Char)) :
    (store_file p fn cfg sniff).returned =
      resolveFileName (sanitizeFileName fn) cfg (sniff p.data) := rfl

theorem store_file_path (p : Paste) (fn : List Char) (cfg : Config)
    (sniff : Bytes → Option (List Char)) :
    (store_file p fn cfg sniff).path =
      cfg.upload_path ++
        [resolveFileName (sanitizeFileName fn) cfg (sniff p.data)] := rfl

theorem store_file_content (p : Paste) (fn : List Char) (cfg : Config)
    (sniff : Bytes → Option (List Char)) :
    (store_file p fn cfg sniff).content = p.data := rfl

theorem resolveFileName_ext_none {n ext : List Char} {cfg : Config}
    {sn : Option (List Char)} (hext : fnExtension n = some ext)
    (hg : cfg.genResult = none) : resolveFileName n cfg sn = n := by
  unfold resolveFileName
  rw [hext, hg]

theorem resolveFileName_ext_some {n ext g : List Char} {cfg : Config}
    {sn : Option (List Char)} (hext : fnExtension n = some ext)
    (hg : cfg.genResult = some g) :
    resolveFileName n cfg sn = setExtension g ext := by
  unfold resolveFileName
  rw [hext, hg]

theorem resolveFileName_noext {n : List Char} {cfg : Config}
    {sn : Option (List Char)} (hext : fnExtension n = none) :
    resolveFileName n cfg sn =
      setExtension (cfg.genResult.getD n) (sn.getD cfg.default_extension) := by
  unfold resolveFileName
  rw [hext]
  rcases hg : cfg.genResult with _ | g <;> rfl

theorem not_dot_ne_special {g : List Char} (h : '.' ∉ g) :
    g ≠ ['.'] ∧ g ≠ ['.', '.'] :=
  ⟨fun hE => h (by rw [hE]; exact List.mem_singleton_self '.'),
   fun hE => h (by rw [hE]; exact List.mem_cons_self '.' ['.'])⟩

/-- Every name resolveFileName can produce from a sanitized base is a
well-formed single path component, provided the external generator only
yields non-empty, dot-free names other than "-". -/
theorem resolveFileName_valid (fn : List Char) (cfg : Config)
    (sn : Option (List Char))
    (hgen : ∀ g, cfg.genResult = some g → g ≠ [] ∧ '.' ∉ g ∧ g ≠ ['-']) :
    resolveFileName (sanitizeFileName fn) cfg sn ≠ []
    ∧ resolveFileName (sanitizeFileName fn) cfg sn ≠ ['-']
    ∧ resolveFileName (sanitizeFileName fn) cfg sn ≠ ['.']
    ∧ resolveFileName (sanitizeFileName fn) cfg sn ≠ ['.', '.']
    ∧ ('/' ∉ cfg.default_extension →
        (∀ e, sn = some e → '/' ∉ e) →
        (∀ g, cfg.genResult = some g → '/' ∉ g) →
        '/' ∉ resolveFileName (sanitizeFileName fn) cfg sn) := by
  obtain ⟨h1, h2, h3, h4, h5⟩ := sanitizeFileName_valid fn
  rcases hext : fnExtension (sanitizeFileName fn) with _ | ext
  · rw [resolveFileName_noext hext]
    rcases hg : cfg.genResult with _ | g
    · simp only [Option.getD_none]
      have hst := fnStem_of_fnExtension_none hext
      have hns := setExtension_not_special
        (e := sn.getD cfg.default_extension) hst h1 h5 h3 h4
      refine ⟨hns.1, hns.2.1, hns.2.2.1, hns.2.2.2, ?_⟩
      intro hde hsn _
      apply setExtension_no_slash h2
      rcases hsn2 : sn with _ | e
      · exact hde
      · exact hsn e hsn2
    · obtain ⟨hg1, hg2, hg3⟩ := hgen g hg
      simp only [Option.getD_some]
      have hst := fnStem_of_not_dot hg2
      obtain ⟨hgd1, hgd2⟩ := not_dot_ne_special hg2
      have hns := setExtension_not_special
        (e := sn.getD cfg.default_extension) hst hg1 hg3 hgd1 hgd2
      refine ⟨hns.1, hns.2.1, hns.2.2.1, hns.2.2.2, ?_⟩
      intro hde hsn hgs
      apply setExtension_no_slash (hgs g rfl)
      rcases hsn2 : sn with _ | e
      · exact hde
      · exact hsn e hsn2
  · rcases hg : cfg.genResult with _ | g
    · rw [resolveFileName_ext_none hext hg]
      exact ⟨h1, h5, h3, h4, fun _ _ _ => h2⟩
    · rw [resolveFileName_ext_some hext hg]
      obtain ⟨hg1, hg2, hg3⟩ := hgen g hg
      have hst := fnStem_of_not_dot hg2
      obtain ⟨hgd1, hgd2⟩ := not_dot_ne_special hg2
      have hns := setExtension_not_special (e := ext) hst hg1 hg3 hgd1 hgd2
      refine ⟨hns.1, hns.2.1, hns.2.2.1, hns.2.2.2, ?_⟩
      intro hde hsn hgs
      apply setExtension_no_slash (hgs g rfl)
      obtain ⟨st, hstq⟩ := fnExtension_eq_some hext
      intro hmem
      exact h2 (by
        rw [hstq]
        exact List.mem_append_right _ (List.mem_cons_of_mem _ hmem))

/-! Claim theorems. -/

/-- C1: store_file first reduces the requested name to its final path
component (directory components are stripped, so store_file depends only
on the sanitized base); when extraction yields no usable component (empty
path, ".", ".."), the base defaults to "file"; when the extracted
component is exactly "-", it becomes "stdin". -/
theorem store_file_sanitizes_requested_name :
    (∀ p fn cfg sniff,
      store_file p fn cfg sniff = store_file p (sanitizeFileName fn) cfg sniff)
    ∧ (∀ d r, pathComponents r ≠ [] →
        sanitizeFileName (d ++ '/' :: r) = sanitizeFileName r)
    ∧ (∀ l, rustFileName l = none → sanitizeFileName l = "file".data)
    ∧ (∀ l, rustFileName l = some ['-'] → sanitizeFileName l = "stdin".data)
    ∧ (∀ l v, rustFileName l = some v → v ≠ ['-'] → sanitizeFileName l = v)
    ∧ sanitizeFileName "".data = "file".data
    ∧ sanitizeFileName ".".data = "file".data
    ∧ sanitizeFileName "..".data = "file".data
    ∧ sanitizeFileName "-".data = "stdin".data
    ∧ sanitizeFileName "dir/sub/name.txt".data = "name.txt".data := by
  refine ⟨?_, ?_, ?_, ?_, ?_,
    by decide, by decide, by decide, by decide, by decide⟩
  · intro p fn cfg sniff
    unfold store_file
    rw [sanitizeFileName_idem]
  · exact fun d r h => sanitizeFileName_append d h
  · intro l h
    unfold sanitizeFileName
    rw [h]
  · intro l h
    unfold sanitizeFileName
    rw [h]
    simp
  · intro l v h hv
    unfold sanitizeFileName
    rw [h]
    dsimp only
    rw [if_neg hv]

/-- Witness for C1 at concrete inputs. -/
theorem store_file_sanitizes_requested_name_witness :
    sanitizeFileName ("dir".data ++ '/' :: "name.txt".data) =
      sanitizeFileName "name.txt".data ∧
    sanitizeFileName "x/y/z".data = "z".data :=
  ⟨store_file_sanitizes_requested_name.2.1 "dir".data "name.txt".data
      (by decide),
   store_file_sanitizes_requested_name.2.2.2.2.1 "x/y/z".data "z".data
      (by decide) (by decide)⟩

/-- C2: when the sanitized base has an extension, a generated replacement
base name keeps the original extension; with no generated name the base
and extension are unchanged; the stub generator "xyz" on "test.txt"
yields "xyz.txt". -/
theorem store_file_with_extension_spec :
    (∀ p fn cfg sniff ext, fnExtension (sanitizeFileName fn) = some ext →
      (cfg.genResult = none →
        (store_file p fn cfg sniff).returned = sanitizeFileName fn)
      ∧ (∀ g, cfg.genResult = some g → '.' ∉ g → ext ≠ [] →
          (store_file p fn cfg sniff).returned = g ++ '.' :: ext))
    ∧ (store_file ⟨[], .File⟩ "test.txt".data ⟨some "xyz".data, [], []⟩
        (fun _ => none)).returned = "xyz.txt".data := by
  refine ⟨?_, by decide⟩
  intro p fn cfg sniff ext hext
  constructor
  · intro hg
    rw [store_file_returned, resolveFileName_ext_none hext hg]
  · intro g hg hdot hne
    rw [store_file_returned, resolveFileName_ext_some hext hg,
      setExtension_eq_append (fnStem_of_not_dot hdot) hne]

/-- Witness for C2 at concrete inputs. -/
theorem store_file_with_extension_spec_witness :
    (store_file ⟨[], PasteType.File⟩ "a/test.txt".data ⟨none, [], []⟩
      (fun _ => none)).returned = sanitizeFileName "a/test.txt".data ∧
    (store_file ⟨[], PasteType.File⟩ "test.txt".data ⟨some "pet".data, [], []⟩
      (fun _ => none)).returned = "pet".data ++ '.' :: "txt".data :=
  ⟨(store_file_with_extension_spec.1 ⟨[], PasteType.File⟩ "a/test.txt".data
      ⟨none, [], []⟩ (fun _ => none) "txt".data (by decide)).1 rfl,
   (store_file_with_extension_spec.1 ⟨[], PasteType.File⟩ "test.txt".data
      ⟨some "pet".data, [], []⟩ (fun _ => none) "txt".data (by decide)).2
      "pet".data rfl (by decide) (by decide)⟩

/-- C3: with no extension on the sanitized base, the generated name (when
one is produced) replaces the base, and the extension is set from content
sniffing with the configured default extension as fallback; with default
"bin" and unsniffable content the name "random" resolves to "random.bin",
and the written content equals the input bytes. -/
theorem store_file_without_extension_spec :
    (∀ p fn cfg sniff, fnExtension (sanitizeFileName fn) = none →
      (store_file p fn cfg sniff).returned =
        setExtension (cfg.genResult.getD (sanitizeFileName fn))
          ((sniff p.data).getD cfg.default_extension)
      ∧ (∀ b e, b = cfg.genResult.getD (sanitizeFileName fn) →
          e = (sniff p.data).getD cfg.default_extension →
          b ≠ [] → fnExtension b = none → e ≠ [] → '.' ∉ e →
          fnExtension (store_file p fn cfg sniff).returned = some e ∧
          fnStem (store_file p fn cfg sniff).returned = b))
    ∧ (store_file ⟨[1, 2, 3], .File⟩ "random".data ⟨none, "bin".data, []⟩
        (fun _ => none)).returned = "random.bin".data
    ∧ (store_file ⟨[1, 2, 3], .File⟩ "random".data ⟨none, "bin".data, []⟩
        (fun _ => none)).content = [1, 2, 3] := by
  refine ⟨?_, by decide, by decide⟩
  intro p fn cfg sniff hext
  constructor
  · rw [store_file_returned, resolveFileName_noext hext]
  · intro b e hb he hbne hbext hene hedot
    rw [store_file_returned, resolveFileName_noext hext, ← hb, ← he]
    exact setExtension_props hbne (fnStem_of_fnExtension_none hbext)
      hene hedot

/-- Witness for C3 at concrete inputs. -/
theorem store_file_without_extension_spec_witness :
    fnExtension (store_file ⟨[9], PasteType.File⟩ "random".data
      ⟨some "abc".data, "bin".data, []⟩ (fun _ => none)).returned =
      some "bin".data ∧
    fnStem (store_file ⟨[9], PasteType.File⟩ "random".data
      ⟨some "abc".data, "bin".data, []⟩ (fun _ => none)).returned =
      "abc".data :=
  (store_file_without_extension_spec.1 ⟨[9], PasteType.File⟩ "random".data
    ⟨some "abc".data, "bin".data, []⟩ (fun _ => none) (by decide)).2
    "abc".data "bin".data rfl rfl (by decide) (by decide) (by decide)
    (by decide)

/-- C4 counterexample: with the random-name feature enabled (a generator
returning "xyz") and default extension "bin", requested name "-" resolves
to "xyz.bin", whose base name is "xyz", not "stdin". -/
theorem store_file_dash_counterexample :
    (store_file ⟨[], .File⟩ "-".data ⟨some "xyz".data, "bin".data, []⟩
        (fun _ => none)).returned = "xyz.bin".data ∧
    fnStem (store_file ⟨[], .File⟩ "-".data ⟨some "xyz".data, "bin".data, []⟩
        (fun _ => none)).returned ≠ "stdin".data := by
  decide

/-- C4 amended: requested name "-" is sanitized to the base "stdin", and
whenever the generator produces no replacement name the resolved file's
base name is "stdin". -/
theorem store_file_dash_stdin :
    sanitizeFileName "-".data = "stdin".data ∧
    (∀ p cfg sniff, cfg.genResult = none →
      '.' ∉ (sniff p.data).getD cfg.default_extension →
      fnStem (store_file p "-".data cfg sniff).returned = "stdin".data) := by
  refine ⟨by decide, ?_⟩
  intro p cfg sniff hg hdot
  have hext : fnExtension (sanitizeFileName "-".data) = none := by decide
  rw [store_file_returned, resolveFileName_noext hext, hg]
  simp only [Option.getD_none]
  have hs : sanitizeFileName "-".data = "stdin".data := by decide
  rw [hs]
  rcases he : (sniff p.data).getD cfg.default_extension with _ | ⟨c, e2⟩
  · decide
  · rw [he] at hdot
    exact (setExtension_props (by decide) (by decide) (by simp) hdot).2

/-- Witness for C4's amended claim at concrete inputs. -/
theorem store_file_dash_stdin_witness :
    fnStem (store_file ⟨[], PasteType.File⟩ "-".data ⟨none, "bin".data, []⟩
      (fun _ => none)).returned = "stdin".data :=
  store_file_dash_stdin.2 ⟨[], PasteType.File⟩ ⟨none, "bin".data, []⟩
    (fun _ => none) rfl (by decide)

/-- C5: the content-disposition classifier returns File for a "file" form
field, else Url for a "url" form field, else fails with a classification
error; "file" is checked first, so a submission matching both fields
yields File. -/
theorem pasteTypeTryFrom_spec :
    ∀ cd : ContentDisposition,
      (cd.has_form_field "file" = true → pasteTypeTryFrom cd = .ok .File)
      ∧ (cd.has_form_field "file" = false → cd.has_form_field "url" = true →
          pasteTypeTryFrom cd = .ok .Url)
      ∧ (cd.has_form_field "file" = false → cd.has_form_field "url" = false →
          pasteTypeTryFrom cd = .error ())
      ∧ (cd.has_form_field "file" = true → cd.has_form_field "url" = true →
          pasteTypeTryFrom cd = .ok .File) := by
  intro cd
  refine ⟨fun h1 => ?_, fun h1 h2 => ?_, fun h1 h2 => ?_, fun h1 _ => ?_⟩ <;>
    simp [pasteTypeTryFrom, *]

/-- Witness for C5 at concrete metadata values. -/
theorem pasteTypeTryFrom_spec_witness :
    pasteTypeTryFrom ⟨fun _ => true⟩ = .ok PasteType.File ∧
    pasteTypeTryFrom ⟨fun _ => false⟩ = .error () :=
  ⟨(pasteTypeTryFrom_spec ⟨fun _ => true⟩).2.2.2 rfl rfl,
   (pasteTypeTryFrom_spec ⟨fun _ => false⟩).2.2.1 rfl rfl⟩

/-- C8: the full byte buffer is written unmodified, and reading the
resolved path back from the filesystem yields content byte-identical to
the paste's input data. -/
theorem store_file_roundtrip :
    ∀ fs p fn cfg sniff,
      (store_file p fn cfg sniff).content = p.data ∧
      fsRead (fsWrite fs (store_file p fn cfg sniff).path
          (store_file p fn cfg sniff).content)
        (store_file p fn cfg sniff).path = some p.data := by
  intro fs p fn cfg sniff
  refine ⟨rfl, ?_⟩
  simp [fsRead, fsWrite, store_file]

/-- C6: store_url fails, with a validation error (a class kept distinct
from the I/O error reserved for file failures), exactly when the paste
bytes are not valid text or the decoded text does not parse as an
absolute URL; in particular "testurl.com" (no scheme) is rejected. -/
theorem store_url_validation_spec :
    (∀ d ty cfg,
      ((∃ m, store_url ⟨d, ty⟩ cfg = .error (.validation m)) ↔
        (utf8Decode d).bind urlParse = none)
      ∧ store_url ⟨d, ty⟩ cfg ≠ .error .ioError)
    ∧ (∃ m, store_url ⟨"testurl.com".data.map Char.toNat, .Url⟩
        ⟨none, [], []⟩ = .error (.validation m)) := by
  refine ⟨?_, "relative URL without a base".data, by decide⟩
  intro d ty cfg
  unfold store_url
  rcases hu : utf8Decode d with _ | c
  · simp
  · rcases hp : urlParse c with _ | u <;> simp [hp]

/-- Witness for C6 (the general part applied at a concrete input). -/
theorem store_url_validation_spec_witness :
    (∃ m, store_url ⟨[0xFF], PasteType.Url⟩ ⟨none, [], []⟩ =
      .error (.validation m)) ↔
      (utf8Decode [0xFF]).bind urlParse = none :=
  (store_url_validation_spec.1 [0xFF] PasteType.Url ⟨none, [], []⟩).1

/-- C7: on a valid URL paste, store_url resolves the name to the
generator's output with literal fallback "url", writes the canonicalized
URL string (not the raw input bytes) to upload_path/url/<name>, and
returns the name; on "https://orhun.dev" the stored text is the canonical
"https://orhun.dev/", which differs from the raw input. -/
theorem store_url_success_spec :
    (∀ d ty cfg r, store_url ⟨d, ty⟩ cfg = .ok r →
      r.returned = cfg.genResult.getD "url".data
      ∧ r.path = cfg.upload_path ++ ["url".data, r.returned]
      ∧ ∃ c u, utf8Decode d = some c ∧ urlParse c = some u
          ∧ r.content = urlToString u)
    ∧ ((store_url ⟨"https://orhun.dev".data.map Char.toNat, .Url⟩
        ⟨none, [], []⟩).map (fun r => (r.returned, r.path, r.content)) =
        .ok ("url".data, ["url".data, "url".data],
          "https://orhun.dev/".data.map Char.toNat))
    ∧ "https://orhun.dev/".data.map Char.toNat ≠
        "https://orhun.dev".data.map Char.toNat := by
  refine ⟨?_, by decide, by decide⟩
  intro d ty cfg r h
  unfold store_url at h
  rcases hu : utf8Decode d with _ | c
  · rw [hu] at h; cases h
  · rw [hu] at h
    dsimp only at h
    rcases hp : urlParse c with _ | u
    · rw [hp] at h; cases h
    · rw [hp] at h
      dsimp only at h
      injection h with h
      subst h
      exact ⟨rfl, rfl, c, u, rfl, hp, rfl⟩

/-- Witness for C7 (the general part applied at a concrete input). -/
theorem store_url_success_spec_witness :
    (StoredUrl.mk "url".data ["url".data, "url".data]
        ("https://orhun.dev/".data.map Char.toNat)).returned =
      (Config.mk none [] []).genResult.getD "url".data :=
  (store_url_success_spec.1 ("https://orhun.dev".data.map Char.toNat)
    PasteType.Url ⟨none, [], []⟩
    ⟨"url".data, ["url".data, "url".data],
      "https://orhun.dev/".data.map Char.toNat⟩ (by decide)).1

/-- C9: for every requested name and paste, provided the external
generator only ever yields well-formed names (non-empty, dot-free and not
"-", as pet names and alphanumeric strings are), the resolved file name
of both store operations is never empty and never the literal "-". -/
theorem resolved_name_invariant :
    ∀ p fn cfg sniff,
      (∀ g, cfg.genResult = some g → g ≠ [] ∧ '.' ∉ g ∧ g ≠ ['-']) →
      ((store_file p fn cfg sniff).returned ≠ []
        ∧ (store_file p fn cfg sniff).returned ≠ ['-'])
      ∧ (∀ r, store_url p cfg = .ok r →
          r.returned ≠ [] ∧ r.returned ≠ ['-']) := by
  intro p fn cfg sniff hgen
  constructor
  · rw [store_file_returned]
    have h := resolveFileName_valid fn cfg (sniff p.data) hgen
    exact ⟨h.1, h.2.1⟩
  · intro r hr
    unfold store_url at hr
    rcases hu : utf8Decode p.data with _ | c
    · rw [hu] at hr; cases hr
    · rw [hu] at hr
      dsimp only at hr
      rcases hp : urlParse c with _ | u
      · rw [hp] at hr; cases hr
      · rw [hp] at hr
        dsimp only at hr
        injection hr with hr
        subst hr
        dsimp only
        rcases hg : cfg.genResult with _ | g
        · exact ⟨by decide, by decide⟩
        · obtain ⟨hg1, _, hg3⟩ := hgen g hg
          exact ⟨hg1, hg3⟩

/-- Witness for C9 at concrete inputs. -/
theorem resolved_name_invariant_witness :
    (store_file ⟨[7], PasteType.File⟩ "a/../b".data ⟨none, "bin".data, []⟩
      (fun _ => none)).returned ≠ [] :=
  ((resolved_name_invariant ⟨[7], PasteType.File⟩ "a/../b".data
    ⟨none, "bin".data, []⟩ (fun _ => none) (fun _ hg => nomatch hg)).1).1

/-- C10: the path store_file writes to is always the upload root joined
with exactly one well-formed file-name component (never empty, never "."
or "..", and free of the separator whenever the generator output, the
sniffed extension and the default extension are), so the write stays
inside the upload root; e.g. requested name "../../etc/passwd" writes to
upload_root/passwd.bin. -/
theorem store_file_path_confinement :
    (∀ p fn cfg sniff,
      (∀ g, cfg.genResult = some g → g ≠ [] ∧ '.' ∉ g ∧ g ≠ ['-']) →
      ∃ n, (store_file p fn cfg sniff).path = cfg.upload_path ++ [n]
        ∧ n ≠ [] ∧ n ≠ ['.'] ∧ n ≠ ['.', '.']
        ∧ ('/' ∉ cfg.default_extension →
            (∀ e, sniff p.data = some e → '/' ∉ e) →
            (∀ g, cfg.genResult = some g → '/' ∉ g) →
            '/' ∉ n))
    ∧ (store_file ⟨[], .File⟩ "../../etc/passwd".data
        ⟨none, "bin".data, ["up".data]⟩ (fun _ => none)).path =
        ["up".data, "passwd.bin".data] := by
  refine ⟨?_, by decide⟩
  intro p fn cfg sniff hgen
  refine ⟨resolveFileName (sanitizeFileName fn) cfg (sniff p.data),
    store_file_path p fn cfg sniff, ?_⟩
  have h := resolveFileName_valid fn cfg (sniff p.data) hgen
  exact ⟨h.1, h.2.2.1, h.2.2.2.1, h.2.2.2.2⟩

/-- Witness for C10 at concrete inputs. -/
theorem store_file_path_confinement_witness :
    ∃ n, (store_file ⟨[], PasteType.File⟩ "../../etc/shadow".data
        ⟨none, "bin".data, ["root".data]⟩ (fun _ => none)).path =
        ["root".data] ++ [n]
      ∧ n ≠ [] ∧ n ≠ ['.'] ∧ n ≠ ['.', '.']
      ∧ ('/' ∉ "bin".data →
          (∀ e, (none : Option (List Char)) = some e → '/' ∉ e) →
          (∀ g, (none : Option (List Char)) = some g → '/' ∉ g) →
          '/' ∉ n) :=
  store_file_path_confinement.1 ⟨[], PasteType.File⟩ "../../etc/shadow".data
    ⟨none, "bin".data, ["root".data]⟩ (fun _ => none) (fun _ hg => nomatch hg)

end RustyPaste
